import Mathlib

/-!
Shallow embedding of the basin08 sparse-matrix pipeline
(`scripts/basin08_sparse_matrix.py`, with the sibling `normalize_value`
of `scripts/edop/populate_whc_matrix.py`).

Python floats are modelled as rationals (`ℚ`), SQL NULL / Python `None`
as `Option`, database rows as lists, and Python dicts as association
lists consulted with `List.lookup`.  Fallible paths (a Python exception)
are modelled with `Option` results, `none` meaning the run raises.
-/

namespace Cedop

/-- The 31 `(source_column, semantic_name)` pairs of `NUMERICAL_FIELDS`. -/
def NUMERICAL_FIELDS : List (String × String) := [
  ("ele_mt_smn", "elev_min"),
  ("ele_mt_smx", "elev_max"),
  ("slp_dg_sav", "slope_avg"),
  ("slp_dg_uav", "slope_upstream"),
  ("sgr_dk_sav", "stream_gradient"),
  ("kar_pc_sse", "karst"),
  ("kar_pc_use", "karst_upstream"),
  ("dis_m3_pyr", "discharge_yr"),
  ("dis_m3_pmn", "discharge_min"),
  ("dis_m3_pmx", "discharge_max"),
  ("ria_ha_ssu", "river_area"),
  ("ria_ha_usu", "river_area_upstream"),
  ("run_mm_syr", "runoff"),
  ("gwt_cm_sav", "gw_table_depth"),
  ("cly_pc_sav", "pct_clay"),
  ("slt_pc_sav", "pct_silt"),
  ("snd_pc_sav", "pct_sand"),
  ("tmp_dc_syr", "temp_yr"),
  ("tmp_dc_smn", "temp_min"),
  ("tmp_dc_smx", "temp_max"),
  ("pre_mm_syr", "precip_yr"),
  ("ari_ix_sav", "aridity"),
  ("wet_pc_sg1", "wet_pct_grp1"),
  ("wet_pc_sg2", "wet_pct_grp2"),
  ("prm_pc_sse", "permafrost_extent"),
  ("rev_mc_usu", "reservoir_vol"),
  ("crp_pc_sse", "cropland_extent"),
  ("ppd_pk_sav", "pop_density"),
  ("hft_ix_s09", "human_footprint_09"),
  ("gdp_ud_sav", "gdp_avg"),
  ("hdi_ix_sav", "human_dev_idx")]

/-- `TEMP_FIELDS`: source columns stored as tenths of a degree. -/
def TEMP_FIELDS : List String := ["tmp_dc_syr", "tmp_dc_smn", "tmp_dc_smx"]

/-- One entry of `CATEGORICAL_FIELDS`:
`(source_column, namespace_prefix, id_column, lookup_table)`. -/
structure CatField where
  src_col : String
  pfx : String
  id_col : String
  lut : String
deriving DecidableEq, Repr

/-- The 9 categorical field specs of `CATEGORICAL_FIELDS`. -/
def CATEGORICAL_FIELDS : List CatField := [
  ⟨"tec_cl_smj", "tec", "eco_id", "lu_tec"⟩,
  ⟨"fec_cl_smj", "fec", "eco_id", "lu_fec"⟩,
  ⟨"cls_cl_smj", "cls", "gens_id", "lu_cls"⟩,
  ⟨"glc_cl_smj", "glc", "glc_id", "lu_glc"⟩,
  ⟨"clz_cl_smj", "clz", "genz_id", "lu_clz"⟩,
  ⟨"lit_cl_smj", "lit", "glim_id", "lu_lit"⟩,
  ⟨"tbi_cl_smj", "tbi", "biome_id", "lu_tbi"⟩,
  ⟨"fmh_cl_smj", "fmh", "mht_id", "lu_fmh"⟩,
  ⟨"wet_cl_smj", "wet", "glwd_id", "lu_wet"⟩]

/-- Two-digit zero padding, the `f"{i:02d}"` of the source. -/
def pad2 (n : Nat) : String :=
  if n < 10 then "0" ++ toString n else toString n

/-- `PNV_FIELDS = [f"pnv_pc_s{i:02d}" for i in range(1, 16)]`. -/
def PNV_FIELDS : List String :=
  (List.range 15).map (fun i => "pnv_pc_s" ++ pad2 (i + 1))

/-- `normalize_value` of `basin08_sparse_matrix.py`: null in any argument
gives the 0.0 missing-data default, a degenerate `max == min` range gives
0.5, otherwise linear rescaling without clamping. -/
def normalize_value (value min_val max_val : Option ℚ) : ℚ :=
  match value, min_val, max_val with
  | some v, some mn, some mx =>
      if mx = mn then 1/2 else (v - mn) / (mx - mn)
  | _, _, _ => 0

/-- `normalize_value` of `edop/populate_whc_matrix.py`: identical linear
rescaling, but a null in any argument returns `None` (here `none`)
instead of 0.0. -/
def normalize_value_whc (value min_val max_val : Option ℚ) : Option ℚ :=
  match value, min_val, max_val with
  | some v, some mn, some mx =>
      some (if mx = mn then 1/2 else (v - mn) / (mx - mn))
  | _, _, _ => none

/-- The reference definition of `normalize_continuous` transcribed from the
spec's words (§4.4): 0.0 whenever any argument is null; 0.5 whenever min
and max are non-null and equal; otherwise `(raw - min) / (max - min)`. -/
def normalize_continuous_spec (raw mn mx : Option ℚ) : ℚ :=
  if raw.isNone ∨ mn.isNone ∨ mx.isNone then 0
  else if mn = mx then 1/2
  else (raw.getD 0 - mn.getD 0) / (mx.getD 0 - mn.getD 0)

/-- One row of the `basin08` source table, as fetched by the matrix query:
the basin identifier followed by the 31 numerical columns, the 15 PNV
columns and the 9 categorical columns (each nullable). -/
structure BasinRow where
  hybas_id : Int
  num_vals : List (Option ℚ)
  pnv_vals : List (Option ℚ)
  cat_vals : List (Option Int)
deriving Repr

/-- A Python dict with string keys, as an association list. -/
abbrev StrDict (α : Type) := List (String × α)

/-- `ranges.get(key)`: `none` when the key is absent, else the stored
(possibly NULL) value. -/
def rangesGet (r : StrDict (Option ℚ)) (k : String) : Option ℚ :=
  (r.lookup k).getD none

/-- SQL `MIN` over a nullable column: ignores NULLs, NULL on an
all-NULL/empty column. -/
def sqlMin : List (Option ℚ) → Option ℚ
  | [] => none
  | none :: rest => sqlMin rest
  | some v :: rest =>
      match sqlMin rest with
      | none => some v
      | some w => some (min v w)

/-- SQL `MAX` over a nullable column, dually. -/
def sqlMax : List (Option ℚ) → Option ℚ
  | [] => none
  | none :: rest => sqlMax rest
  | some v :: rest =>
      match sqlMax rest with
      | none => some v
      | some w => some (max v w)

/-- Apply the tenths-of-degree conversion `x / 10` when the source column
is a temperature column (`if db_col in TEMP_FIELDS and raw is not None`). -/
def tempConvert (db_col : String) (v : Option ℚ) : Option ℚ :=
  if db_col ∈ TEMP_FIELDS then
    match v with
    | some x => some (x / 10)
    | none => none
  else v

/-- The `k`-th numerical column of the source snapshot, with the
temperature conversion applied inside the aggregate (`MIN(col/10.0)`). -/
def numColumn (basins : List BasinRow) (k : Nat) (db_col : String) :
    List (Option ℚ) :=
  basins.map (fun r => tempConvert db_col (r.num_vals.getD k none))

/-- The compute branch of `get_global_ranges`: one `name_min` and one
`name_max` aggregate per numerical field, over the full `basin08` table. -/
def computeRanges (basins : List BasinRow) : StrDict (Option ℚ) :=
  NUMERICAL_FIELDS.enum.flatMap (fun q =>
    [(q.2.2 ++ "_min", sqlMin (numColumn basins q.1 q.2.1)),
     (q.2.2 ++ "_max", sqlMax (numColumn basins q.1 q.2.1))])

/-- The `edop_norm_ranges` table: rows keyed by `id`, each carrying the
named range columns (`dict(zip(cols, row))` of the source). -/
abbrev RangesTable := List (Nat × StrDict (Option ℚ))

/-- `get_global_ranges`: if `edop_norm_ranges` is non-empty, load the row
with `id = 1` verbatim — when that row is missing, `cur.fetchone()` is
`None` and `dict(zip(cols, None))` raises, modelled as `none`.  Only an
empty table falls through to computing ranges from `basin08`. -/
def get_global_ranges (tbl : RangesTable) (basins : List BasinRow) :
    Option (StrDict (Option ℚ)) :=
  if tbl.length > 0 then
    match tbl.find? (fun r => r.1 = 1) with
    | some r => some r.2
    | none => none
  else some (computeRanges basins)

/-- Dict access with a default (`d.get(k, dflt)` / guarded `d[k]`). -/
def lookupD {α : Type} (d : StrDict α) (k : String) (dflt : α) : α :=
  (d.lookup k).getD dflt

/-- The per-field category vocabularies in `CATEGORICAL_FIELDS` order:
for each field, its namespace prefix and `cat_ids[prefix]`. -/
def catPairs (cat_ids : StrDict (List Int)) : List (String × List Int) :=
  CATEGORICAL_FIELDS.map (fun f => (f.pfx, lookupD cat_ids f.pfx []))

/-- The inner loop of the `cat_id_to_col` construction: consecutive column
indices `c, c+1, …` assigned to a vocabulary's ids in order. -/
def idCols (c : Nat) : List Int → List (Int × Nat)
  | [] => []
  | v :: vs => (v, c) :: idCols (c + 1) vs

/-- The `cat_id_to_col` construction: a running column counter threaded
through the fields in order, one id-to-column map per namespace prefix. -/
def buildColMapAux (start : Nat) :
    List (String × List Int) → StrDict (List (Int × Nat))
  | [] => []
  | (p, vocab) :: rest =>
      (p, idCols start vocab) :: buildColMapAux (start + vocab.length) rest

/-- `cat_col_offset = n_numerical + n_pnv` (= 46). -/
def catColOffset : Nat := NUMERICAL_FIELDS.length + PNV_FIELDS.length

/-- `cat_id_to_col`, keyed by namespace prefix. -/
def buildColMap (cat_ids : StrDict (List Int)) : StrDict (List (Int × Nat)) :=
  buildColMapAux catColOffset (catPairs cat_ids)

/-- `build_feature_names`: `n_*` numerical names, then `pnv_01 … pnv_15`,
then one `cat_<prefix>_<id>` per vocabulary id, in field order. -/
def build_feature_names (cat_ids : StrDict (List Int)) : List String :=
  NUMERICAL_FIELDS.map (fun q => "n_" ++ q.2)
  ++ (List.range 15).map (fun i => "pnv_" ++ pad2 (i + 1))
  ++ (catPairs cat_ids).flatMap
      (fun q => q.2.map (fun v => "cat_" ++ q.1 ++ "_" ++ toString v))

/-- The per-row categorical loop of `main`: for each categorical field in
order, read the row's raw value; a non-null value found in
`cat_id_to_col[prefix]` contributes its column, anything else nothing. -/
def catEntries (colMap : StrDict (List (Int × Nat))) :
    List (String × List Int) → List (Option Int) → List Nat
  | [], _ => []
  | _ :: _, [] => []
  | (p, _) :: rest, val :: vrest =>
      (match val with
       | some v =>
           match (lookupD colMap p []).lookup v with
           | some c => [c]
           | none => []
       | none => []) ++ catEntries colMap rest vrest

/-- The one-hot columns of one row: `catEntries` against the
`cat_id_to_col` map built from the vocabularies. -/
def rowEntries (cat_ids : StrDict (List Int)) (row : BasinRow) : List Nat :=
  catEntries (buildColMap cat_ids) (catPairs cat_ids) row.cat_vals

/-- The dense sub-row of one basin: the 31 normalized numerical values
(temperature columns divided by 10 first, ranges looked up by
`name_min` / `name_max`) followed by the 15 PNV shares divided by 100
(0 for NULL, matching the zero-initialised dense array). -/
def denseRow (ranges : StrDict (Option ℚ)) (row : BasinRow) : List ℚ :=
  NUMERICAL_FIELDS.enum.map (fun q =>
    normalize_value (tempConvert q.2.1 (row.num_vals.getD q.1 none))
      (rangesGet ranges (q.2.2 ++ "_min"))
      (rangesGet ranges (q.2.2 ++ "_max")))
  ++ (List.range 15).map (fun i =>
      match row.pnv_vals.getD i none with
      | some v => v / 100
      | none => 0)

/-- The `(i, j)` matrix entry contributed by one row: dense value in the
first `cat_col_offset` columns, and beyond them the COO sum of the row's
one-hot entries at column `j`. -/
def entry (ranges : StrDict (Option ℚ)) (cat_ids : StrDict (List Int))
    (row : BasinRow) (j : Nat) : ℚ :=
  if j < catColOffset then (denseRow ranges row).getD j 0
  else ((rowEntries cat_ids row).count j : ℚ)

/-- One full matrix row, of width `len(feature_names)`. -/
def rowVector (ranges : StrDict (Option ℚ)) (cat_ids : StrDict (List Int))
    (row : BasinRow) : List ℚ :=
  (List.range (build_feature_names cat_ids).length).map
    (entry ranges cat_ids row)

/-- `ORDER BY hybas_id`: the fetch order of the matrix query over the
source snapshot. -/
def sortRows (rows : List BasinRow) : List BasinRow :=
  List.insertionSort (fun a b => a.hybas_id ≤ b.hybas_id) rows

/-- The matrix build of `main`: fetch the snapshot sorted by `hybas_id`,
emit the basin-id array and one feature row per basin in that order. -/
def build_matrix (ranges : StrDict (Option ℚ)) (cat_ids : StrDict (List Int))
    (rows : List BasinRow) : List Int × List (List ℚ) :=
  let sorted := sortRows rows
  (sorted.map (fun r => r.hybas_id), sorted.map (rowVector ranges cat_ids))

/-- Proof-side recursion: the one-hot entries of a row processed as a run
of (vocabulary, raw value) pairs with an explicit running column offset. -/
def entriesAux (start : Nat) : List (List Int × Option Int) → List Nat
  | [] => []
  | (vocab, val) :: rest =>
      (match val with
       | some v =>
           match (idCols start vocab).lookup v with
           | some c => [c]
           | none => []
       | none => []) ++ entriesAux (start + vocab.length) rest

/-- The first column of the `k`-th categorical field's one-hot block: the
value of the running column counter when `cat_id_to_col` reaches that
field. -/
def fieldOffset (cat_ids : StrDict (List Int)) (k : Nat) : Nat :=
  catColOffset + (((catPairs cat_ids).take k).map (fun q => q.2.length)).sum

/-- The sum of one row's matrix entries over the one-hot column block
assigned to the `k`-th categorical field. -/
def blockSum (ranges : StrDict (Option ℚ)) (cat_ids : StrDict (List Int))
    (r : BasinRow) (k : Nat) : ℚ :=
  ∑ i ∈ Finset.range
      (lookupD cat_ids (CATEGORICAL_FIELDS.getD k ⟨"", "", "", ""⟩).pfx []).length,
    (rowVector ranges cat_ids r).getD (fieldOffset cat_ids k + i) 0

/-!  Helper lemmas. -/

/-- A successful `idCols` lookup names the column `c + i` for some index
`i` of the id in the vocabulary. -/
theorem idCols_lookup_some (vs : List Int) (c : Nat) (v : Int) (col : Nat)
    (h : (idCols c vs).lookup v = some col) :
    ∃ i, ∃ hi : i < vs.length, vs[i] = v ∧ col = c + i := by
  induction vs generalizing c with
  | nil => cases h
  | cons w ws ih =>
    simp only [idCols, List.lookup] at h
    by_cases hv : (v == w) = true
    · refine ⟨0, by simp, ?_, ?_⟩
      · simpa using (eq_of_beq hv).symm
      · simpa [hv] using h.symm
    · simp only [hv] at h
      obtain ⟨i, hi, hvi, hcol⟩ := ih (c + 1) h
      refine ⟨i + 1, Nat.succ_lt_succ hi, ?_, ?_⟩
      · simpa using hvi
      · omega

/-- `idCols` lookup succeeds exactly on vocabulary members. -/
theorem idCols_lookup_isSome (vs : List Int) (c : Nat) (v : Int) :
    ((idCols c vs).lookup v).isSome ↔ v ∈ vs := by
  induction vs generalizing c with
  | nil => simp [idCols]
  | cons w ws ih =>
    simp only [idCols, List.lookup]
    by_cases hv : (v == w) = true
    · simp [hv, eq_of_beq hv]
    · have : ¬ v = w := fun he => hv (by simp [he])
      simp [hv, this, ih (c + 1)]

/-- A successful `idCols` lookup lands inside the vocabulary's column
block. -/
theorem idCols_lookup_bound (vs : List Int) (c : Nat) (v : Int) (col : Nat)
    (h : (idCols c vs).lookup v = some col) :
    c ≤ col ∧ col < c + vs.length := by
  obtain ⟨i, hi, _, hcol⟩ := idCols_lookup_some vs c v col h
  omega

/-- The prefixes of `catPairs` are the nine field prefixes, whatever the
vocabularies. -/
theorem catPairs_fst (cat_ids : StrDict (List Int)) :
    (catPairs cat_ids).map Prod.fst = CATEGORICAL_FIELDS.map CatField.pfx := by
  simp [catPairs, List.map_map]

/-- `catEntries` only consults the column map at the listed prefixes. -/
theorem catEntries_congr (cm1 cm2 : StrDict (List (Int × Nat)))
    (pairs : List (String × List Int)) (vals : List (Option Int))
    (h : ∀ q ∈ pairs.map Prod.fst, cm1.lookup q = cm2.lookup q) :
    catEntries cm1 pairs vals = catEntries cm2 pairs vals := by
  induction pairs generalizing vals with
  | nil => rfl
  | cons pq rest ih =>
    cases vals with
    | nil => rfl
    | cons val vrest =>
      obtain ⟨p, vocab⟩ := pq
      have hp : cm1.lookup p = cm2.lookup p := h p (by simp)
      have hrest := ih vrest (fun q hq => h q (by simp [hq]))
      simp only [catEntries, lookupD, hp, hrest]

/-- With distinct prefixes, the per-row categorical loop over the built
column map is the offset-threaded recursion `entriesAux`. -/
theorem catEntries_eq_entriesAux_gen (pairs : List (String × List Int))
    (vals : List (Option Int)) (s : Nat)
    (hnd : (pairs.map Prod.fst).Nodup) :
    catEntries (buildColMapAux s pairs) pairs vals
      = entriesAux s ((pairs.map Prod.snd).zip vals) := by
  induction pairs generalizing vals s with
  | nil => cases vals <;> rfl
  | cons pq rest ih =>
    cases vals with
    | nil => simp [catEntries, entriesAux]
    | cons val vrest =>
      obtain ⟨p, vocab⟩ := pq
      have hnd2 : (rest.map Prod.fst).Nodup := hnd.of_cons
      have hpnotin : p ∉ rest.map Prod.fst := by
        simpa using (List.nodup_cons.mp hnd).1
      have htail : catEntries (buildColMapAux s ((p, vocab) :: rest)) rest vrest
          = catEntries (buildColMapAux (s + vocab.length) rest) rest vrest := by
        refine catEntries_congr _ _ rest vrest (fun q hq => ?_)
        have hqp : ¬ (q == p) = true := by
          intro hb
          exact hpnotin (eq_of_beq hb ▸ hq)
        simp only [buildColMapAux, List.lookup, hqp]
      simp only [catEntries, entriesAux, List.map_cons, List.zip_cons_cons]
      rw [htail, ih vrest (s + vocab.length) hnd2]
      have hhead : lookupD (buildColMapAux s ((p, vocab) :: rest)) p []
          = idCols s vocab := by
        simp [buildColMapAux, lookupD, List.lookup]
      rw [hhead]
      rfl

/-- An association list holding a key yields a `some` lookup. -/
theorem lookup_mem_isSome {α : Type} (l : StrDict α) (k : String) (v : α)
    (h : (k, v) ∈ l) : (l.lookup k).isSome := by
  induction l with
  | nil => cases h
  | cons hd tl ih =>
    simp only [List.lookup]
    by_cases hk : (k == hd.1) = true
    · simp [hk]
    · rcases List.mem_cons.mp h with h1 | h1
      · exact absurd (by rw [← h1]; simp) hk
      · simp only [hk]
        exact ih h1

/-- `computeRanges` carries a `_min` and a `_max` entry for every
numerical field. -/
theorem computeRanges_isSome (basins : List BasinRow) (p : String × String)
    (hp : p ∈ NUMERICAL_FIELDS) :
    ((computeRanges basins).lookup (p.2 ++ "_min")).isSome
    ∧ ((computeRanges basins).lookup (p.2 ++ "_max")).isSome := by
  have hp2 : p ∈ List.map Prod.snd NUMERICAL_FIELDS.enum := by
    rw [List.enum_map_snd]
    exact hp
  obtain ⟨q, hq, hq2⟩ := List.mem_map.mp hp2
  constructor
  · refine lookup_mem_isSome _ _ (sqlMin (numColumn basins q.1 q.2.1)) ?_
    refine List.mem_flatMap.mpr ⟨q, hq, ?_⟩
    rw [← hq2]
    simp
  · refine lookup_mem_isSome _ _ (sqlMax (numColumn basins q.1 q.2.1)) ?_
    refine List.mem_flatMap.mpr ⟨q, hq, ?_⟩
    rw [← hq2]
    simp

/-- Every one-hot column produced by `entriesAux` lies in the overall
categorical column range. -/
theorem entriesAux_mem_bound (l : List (List Int × Option Int)) (s : Nat) :
    ∀ c ∈ entriesAux s l,
      s ≤ c ∧ c < s + (l.map (fun q => q.1.length)).sum := by
  induction l generalizing s with
  | nil => simp [entriesAux]
  | cons q rest ih =>
    obtain ⟨vocab, val⟩ := q
    intro c hc
    simp only [entriesAux, List.mem_append] at hc
    rcases hc with hc | hc
    · cases val with
      | none => simp at hc
      | some v =>
        cases hlk : (idCols s vocab).lookup v with
        | none => simp [hlk] at hc
        | some col =>
          simp only [hlk, List.mem_singleton] at hc
          have hb := idCols_lookup_bound vocab s v col hlk
          simp only [List.map_cons, List.sum_cons]
          omega
    · have := ih (s + vocab.length) c hc
      simp only [List.map_cons, List.sum_cons]
      omega

/-- A head field's one-hot contribution lies below any later field's
column block. -/
theorem headEntry_filter_out (vocab : List Int) (val : Option Int)
    (s off sz : Nat) (h : s + vocab.length ≤ off) :
    (match val with
     | some v =>
         match (idCols s vocab).lookup v with
         | some c => [c]
         | none => []
     | none => ([] : List Nat)).filter
        (fun c => decide (off ≤ c) && decide (c < off + sz)) = [] := by
  rw [List.filter_eq_nil_iff]
  intro c hc
  cases val with
  | none => simp at hc
  | some v =>
    cases hlk : (idCols s vocab).lookup v with
    | none => simp [hlk] at hc
    | some col =>
      simp only [hlk, List.mem_singleton] at hc
      have hb := idCols_lookup_bound vocab s v col hlk
      simp only [Bool.and_eq_true, decide_eq_true_eq, not_and]
      omega

/-- Restricting the one-hot columns of a row to the `k`-th field's column
block leaves exactly that field's contribution. -/
theorem entriesAux_block (l : List (List Int × Option Int)) (s k : Nat)
    (hk : k < l.length) (off : Nat)
    (hoff : off = s + ((l.take k).map (fun q => q.1.length)).sum) :
    (entriesAux s l).filter
        (fun c => decide (off ≤ c) && decide (c < off + l[k].1.length))
      = (match l[k].2 with
         | some v => ((idCols off l[k].1).lookup v).toList
         | none => []) := by
  induction l generalizing s k with
  | nil => cases hk
  | cons q rest ih =>
    obtain ⟨vocab, val⟩ := q
    cases k with
    | zero =>
      have h0 : off = s := by
        simp only [List.take_zero, List.map_nil, List.sum_nil,
          Nat.add_zero] at hoff
        exact hoff
      rw [h0]
      simp only [entriesAux, List.filter_append, List.getElem_cons_zero]
      have htail : (entriesAux (s + vocab.length) rest).filter
          (fun c => decide (s ≤ c) && decide (c < s + vocab.length)) = [] := by
        rw [List.filter_eq_nil_iff]
        intro c hc
        have := entriesAux_mem_bound rest (s + vocab.length) c hc
        simp only [Bool.and_eq_true, decide_eq_true_eq, not_and]
        omega
      rw [htail, List.append_nil]
      cases val with
      | none => simp
      | some v =>
        cases hlk : (idCols s vocab).lookup v with
        | none => simp [hlk]
        | some col =>
          have hb := idCols_lookup_bound vocab s v col hlk
          have hpred : (decide (s ≤ col)
              && decide (col < s + vocab.length)) = true := by
            simp only [Bool.and_eq_true, decide_eq_true_eq]
            omega
          simp [hlk, List.filter_cons, hpred]
    | succ k =>
      have hk2 : k < rest.length := by simpa using hk
      simp only [entriesAux, List.filter_append]
      have hoff2 : off = (s + vocab.length)
          + ((rest.take k).map (fun q => q.1.length)).sum := by
        rw [hoff]
        simp only [List.take_succ_cons, List.map_cons, List.sum_cons]
        omega
      have hsle : s + vocab.length ≤ off := by omega
      rw [headEntry_filter_out vocab val s off _ hsle, List.nil_append]
      have := ih (s + vocab.length) k hk2 hoff2
      simpa using this

/-- Summing multiplicities over a column window counts the entries lying
in that window. -/
theorem sum_count_block (ents : List Nat) (off sz : Nat) :
    ∑ i ∈ Finset.range sz, ents.count (off + i)
      = (ents.filter (fun c => decide (off ≤ c) && decide (c < off + sz))).length := by
  induction ents with
  | nil => simp
  | cons x l ih =>
    have hsum : ∀ i : Nat, (x :: l).count (off + i)
        = l.count (off + i) + (if (x == off + i) = true then 1 else 0) := by
      intro i
      rw [List.count_cons]
    simp only [hsum, Finset.sum_add_distrib, ih]
    by_cases hx : off ≤ x ∧ x < off + sz
    · have h1 : ∑ i ∈ Finset.range sz,
          (if (x == off + i) = true then 1 else 0) = 1 := by
        rw [Finset.sum_eq_single (x - off)]
        · have : off + (x - off) = x := by omega
          simp [this]
        · intro b hb hbne
          have : ¬ x = off + b := by
            intro he
            apply hbne
            omega
          simp [this]
        · intro hmem
          exfalso
          apply hmem
          simp only [Finset.mem_range]
          omega
      rw [h1]
      have hpx : (decide (off ≤ x) && decide (x < off + sz)) = true := by
        simp only [Bool.and_eq_true, decide_eq_true_eq]
        omega
      simp [List.filter_cons, hpx]
    · have h0 : ∑ i ∈ Finset.range sz,
          (if (x == off + i) = true then 1 else 0) = 0 := by
        apply Finset.sum_eq_zero
        intro i hi
        simp only [Finset.mem_range] at hi
        have : ¬ x = off + i := by
          intro he
          exact hx ⟨by omega, by omega⟩
        simp [this]
      rw [h0]
      have hpx : ¬ (decide (off ≤ x) && decide (x < off + sz)) = true := by
        simp only [Bool.and_eq_true, decide_eq_true_eq]
        omega
      simp [List.filter_cons, hpx]

/-- The feature-name list has one numerical name, one PNV name and one
name per vocabulary id of every categorical field. -/
theorem build_feature_names_length (cat_ids : StrDict (List Int)) :
    (build_feature_names cat_ids).length
      = catColOffset + ((catPairs cat_ids).map (fun q => q.2.length)).sum := by
  have hpnv : PNV_FIELDS.length = 15 := by simp [PNV_FIELDS]
  simp only [build_feature_names, List.length_append, List.length_map,
    List.length_flatMap, List.length_range, catColOffset, Function.comp_def,
    hpnv]

/-- Inside the matrix width, `getD` on a row vector is the entry
function. -/
theorem rowVector_getD (ranges : StrDict (Option ℚ))
    (cat_ids : StrDict (List Int)) (r : BasinRow) (j : Nat)
    (hj : j < (build_feature_names cat_ids).length) :
    (rowVector ranges cat_ids r).getD j 0 = entry ranges cat_ids r j := by
  simp [rowVector, List.getD_eq_getElem?_getD, List.getElem?_map,
    List.getElem?_range hj]

/-- A prefix sum plus the next element never exceeds the total. -/
theorem sum_take_getElem_le (l : List Nat) (k : Nat) (hk : k < l.length) :
    (l.take k).sum + l[k] ≤ l.sum := by
  conv_rhs => rw [← List.take_append_drop k l]
  rw [List.sum_append, List.drop_eq_getElem_cons hk, List.sum_cons]
  omega

/-- The one-hot block sum of the `k`-th categorical field, for one row:
the number of this row's one-hot entries landing in that field's column
block, which is exactly that field's own contribution. -/
theorem block_sum_eq (ranges : StrDict (Option ℚ))
    (cat_ids : StrDict (List Int)) (r : BasinRow)
    (hlen : r.cat_vals.length = CATEGORICAL_FIELDS.length)
    (k : Nat) (hk : k < CATEGORICAL_FIELDS.length) :
    ∑ i ∈ Finset.range (lookupD cat_ids (CATEGORICAL_FIELDS[k]).pfx []).length,
        (rowVector ranges cat_ids r).getD (fieldOffset cat_ids k + i) 0
      = ((match r.cat_vals.getD k none with
          | some v => ((idCols (fieldOffset cat_ids k)
              (lookupD cat_ids (CATEGORICAL_FIELDS[k]).pfx [])).lookup v).toList
          | none => ([] : List Nat)).length : ℚ) := by
  have hP : (catPairs cat_ids).length = CATEGORICAL_FIELDS.length := by
    simp [catPairs]
  have hkP : k < (catPairs cat_ids).length := by omega
  have hPk : (catPairs cat_ids)[k]
      = ((CATEGORICAL_FIELDS[k]).pfx,
         lookupD cat_ids (CATEGORICAL_FIELDS[k]).pfx []) := by
    simp [catPairs, List.getElem_map]
  have hvlen : ((catPairs cat_ids).map Prod.snd).length
      = CATEGORICAL_FIELDS.length := by simp [hP]
  have hLlen : (((catPairs cat_ids).map Prod.snd).zip r.cat_vals).length
      = CATEGORICAL_FIELDS.length := by
    simp [List.length_zip, hvlen, hlen]
  have hkL : k < (((catPairs cat_ids).map Prod.snd).zip r.cat_vals).length := by
    omega
  have hkv : k < r.cat_vals.length := by omega
  have hLk : (((catPairs cat_ids).map Prod.snd).zip r.cat_vals)[k]
      = (lookupD cat_ids (CATEGORICAL_FIELDS[k]).pfx [], r.cat_vals[k]) := by
    rw [List.getElem_zip]
    congr 1
    rw [List.getElem_map]
    rw [hPk]
  have hmapfst : (((catPairs cat_ids).map Prod.snd).zip r.cat_vals).map
        (fun q => q.1.length)
      = (catPairs cat_ids).map (fun q => q.2.length) := by
    have h1 : (((catPairs cat_ids).map Prod.snd).zip r.cat_vals).map
          (fun q => q.1.length)
        = ((((catPairs cat_ids).map Prod.snd).zip r.cat_vals).map
            Prod.fst).map List.length := by
      rw [List.map_map]
      rfl
    rw [h1, List.map_fst_zip _ _ (by omega), List.map_map]
    rfl
  have hoffL : fieldOffset cat_ids k
      = catColOffset
        + (((((catPairs cat_ids).map Prod.snd).zip r.cat_vals).take k).map
            (fun q => q.1.length)).sum := by
    rw [fieldOffset, List.map_take, List.map_take, hmapfst]
  have hnodup : ((catPairs cat_ids).map Prod.fst).Nodup := by
    rw [catPairs_fst]
    decide
  have hents : rowEntries cat_ids r
      = entriesAux catColOffset
          (((catPairs cat_ids).map Prod.snd).zip r.cat_vals) :=
    catEntries_eq_entriesAux_gen (catPairs cat_ids) r.cat_vals catColOffset
      hnodup
  have hszle : (((catPairs cat_ids).map (fun q => q.2.length)).take k).sum
        + (lookupD cat_ids (CATEGORICAL_FIELDS[k]).pfx []).length
      ≤ ((catPairs cat_ids).map (fun q => q.2.length)).sum := by
    have hkm : k < ((catPairs cat_ids).map (fun q => q.2.length)).length := by
      simp [hP]
      omega
    have := sum_take_getElem_le ((catPairs cat_ids).map (fun q => q.2.length))
      k hkm
    rw [List.getElem_map, hPk] at this
    exact this
  have hwidth : fieldOffset cat_ids k
        + (lookupD cat_ids (CATEGORICAL_FIELDS[k]).pfx []).length
      ≤ (build_feature_names cat_ids).length := by
    rw [build_feature_names_length, fieldOffset, List.map_take]
    omega
  have hterm : ∀ i ∈ Finset.range
      (lookupD cat_ids (CATEGORICAL_FIELDS[k]).pfx []).length,
      (rowVector ranges cat_ids r).getD (fieldOffset cat_ids k + i) 0
        = ((rowEntries cat_ids r).count (fieldOffset cat_ids k + i) : ℚ) := by
    intro i hi
    simp only [Finset.mem_range] at hi
    rw [rowVector_getD ranges cat_ids r _ (by omega)]
    rw [entry, if_neg (by simp [fieldOffset]; omega)]
  rw [Finset.sum_congr rfl hterm, ← Nat.cast_sum]
  rw [sum_count_block (rowEntries cat_ids r) (fieldOffset cat_ids k)
    (lookupD cat_ids (CATEGORICAL_FIELDS[k]).pfx []).length]
  rw [hents]
  have hblock := entriesAux_block
    (((catPairs cat_ids).map Prod.snd).zip r.cat_vals) catColOffset k hkL
    (fieldOffset cat_ids k) hoffL
  rw [hLk] at hblock
  rw [hblock]
  rw [List.getD_eq_getElem r.cat_vals none hkv]

/-!  Claim theorems. -/

/-- C2: `normalize_value` equals the reference definition transcribed from
the spec — 0.0 on any null argument, 0.5 on a degenerate non-null range,
otherwise exact unclamped linear rescaling — and with `min < max` a raw
value outside `[min, max]` lands outside `[0, 1]`. -/
theorem normalize_value_matches_spec :
    (∀ v mn mx : Option ℚ,
      normalize_value v mn mx = normalize_continuous_spec v mn mx)
    ∧ (∀ v a b : ℚ, a < b → v < a →
        normalize_value (some v) (some a) (some b) < 0)
    ∧ (∀ v a b : ℚ, a < b → b < v →
        1 < normalize_value (some v) (some a) (some b)) := by
  refine ⟨fun v mn mx => ?_, fun v a b hab hva => ?_, fun v a b hab hbv => ?_⟩
  · cases v <;> cases mn <;> cases mx <;>
      simp only [normalize_value, normalize_continuous_spec, Option.isNone_none,
        Option.isNone_some, Option.getD_some, true_or, or_true, if_true,
        Bool.true_eq_false, false_or, or_false, if_false, Option.some.injEq]
    rcases eq_or_ne ‹ℚ› ‹ℚ› with h | h <;> simp_all [eq_comm]
  · have hba : b ≠ a := ne_of_gt hab
    simp only [normalize_value, if_neg hba]
    exact div_neg_of_neg_of_pos (by linarith) (by linarith)
  · have hba : b ≠ a := ne_of_gt hab
    simp only [normalize_value, if_neg hba]
    exact (one_lt_div (by linarith)).mpr (by linarith)

/-- C2 witness at concrete inputs. -/
theorem normalize_value_matches_spec_witness :
    normalize_value (some 5) (some 0) (some 10) =
      normalize_continuous_spec (some 5) (some 0) (some 10)
    ∧ normalize_value (some (-1)) (some 0) (some 10) < 0
    ∧ 1 < normalize_value (some 11) (some 0) (some 10) :=
  ⟨normalize_value_matches_spec.1 (some 5) (some 0) (some 10),
   normalize_value_matches_spec.2.1 (-1) 0 10 (by norm_num) (by norm_num),
   normalize_value_matches_spec.2.2 11 0 10 (by norm_num) (by norm_num)⟩

/-- C6 counterexample: with `min = max = 42` a null raw value returns 0.0,
not the claimed 0.5 — the null check precedes the degenerate-range check. -/
theorem normalize_value_null_degenerate_counterexample :
    normalize_value none (some 42) (some 42) = 0 ∧ (0 : ℚ) ≠ 1/2 :=
  ⟨rfl, by norm_num⟩

/-- C6 amended: when min = max, `normalize_value` returns 0.5 for every
NON-null input value; a null input instead hits the missing-data default
0.0. -/
theorem normalize_value_degenerate_range (mn : ℚ) :
    (∀ v : ℚ, normalize_value (some v) (some mn) (some mn) = 1/2)
    ∧ normalize_value none (some mn) (some mn) = 0 := by
  constructor
  · intro v
    simp [normalize_value]
  · rfl

/-- C7 counterexample: with range (0, 2) and raw value 1 (strictly inside),
re-normalizing the normalized value changes it: 1 ↦ 1/2 ↦ 1/4, so
`normalize_value` is not idempotent under repeated application with the
same (min, max). -/
theorem normalize_value_not_idempotent_counterexample :
    (0 : ℚ) < 1 ∧ (1 : ℚ) < 2
    ∧ normalize_value (some (normalize_value (some 1) (some 0) (some 2)))
        (some 0) (some 2)
      ≠ normalize_value (some 1) (some 0) (some 2) := by
  refine ⟨by norm_num, by norm_num, ?_⟩
  norm_num [normalize_value]

/-- C7 amended: for raw values strictly between min and max the result is
in (0, 1); repeated application with the same (min, max) is the identity
only for the unit range (min, max) = (0, 1), not in general. -/
theorem normalize_value_open_interval :
    (∀ v a b : ℚ, a < v → v < b →
      0 < normalize_value (some v) (some a) (some b)
      ∧ normalize_value (some v) (some a) (some b) < 1)
    ∧ (∀ v : ℚ,
      normalize_value (some (normalize_value (some v) (some 0) (some 1)))
        (some 0) (some 1)
      = normalize_value (some v) (some 0) (some 1)) := by
  constructor
  · intro v a b hav hvb
    have hab : a < b := lt_trans hav hvb
    have hba : b ≠ a := ne_of_gt hab
    simp only [normalize_value, if_neg hba]
    constructor
    · exact div_pos (by linarith) (by linarith)
    · exact (div_lt_one (by linarith)).mpr (by linarith)
  · intro v
    simp [normalize_value]

/-- C7 amended witness at concrete inputs. -/
theorem normalize_value_open_interval_witness :
    (0 < normalize_value (some 1) (some 0) (some 4)
      ∧ normalize_value (some 1) (some 0) (some 4) < 1)
    ∧ normalize_value (some (normalize_value (some 7) (some 0) (some 1)))
        (some 0) (some 1)
      = normalize_value (some 7) (some 0) (some 1) :=
  ⟨normalize_value_open_interval.1 1 0 4 (by norm_num) (by norm_num),
   normalize_value_open_interval.2 7⟩

/-- C10 counterexample: the two `normalize_value` implementations differ on
null input — the basin08 one returns the float 0.0, the whc-matrix one
returns `None`. -/
theorem normalize_value_whc_differs_counterexample :
    some (normalize_value none none none) ≠ normalize_value_whc none none none := by
  simp [normalize_value, normalize_value_whc]

/-- C10 amended: the two implementations agree on every fully non-null
input triple; whenever any argument is null they diverge, the basin08 one
returning 0.0 and the whc-matrix one returning `None`. -/
theorem normalize_value_whc_agreement :
    (∀ v mn mx : ℚ,
      normalize_value_whc (some v) (some mn) (some mx)
        = some (normalize_value (some v) (some mn) (some mx)))
    ∧ (∀ v mn mx : Option ℚ, v = none ∨ mn = none ∨ mx = none →
        normalize_value v mn mx = 0 ∧ normalize_value_whc v mn mx = none) := by
  constructor
  · intro v mn mx
    simp [normalize_value, normalize_value_whc]
  · intro v mn mx h
    cases v <;> cases mn <;> cases mx <;>
      simp_all [normalize_value, normalize_value_whc]

/-- C10 amended witness at concrete inputs. -/
theorem normalize_value_whc_agreement_witness :
    normalize_value_whc (some 3) (some 1) (some 5)
      = some (normalize_value (some 3) (some 1) (some 5))
    ∧ (normalize_value none (some 1) (some 5) = 0
       ∧ normalize_value_whc none (some 1) (some 5) = none) :=
  ⟨normalize_value_whc_agreement.1 3 1 5,
   normalize_value_whc_agreement.2 none (some 1) (some 5) (Or.inl rfl)⟩

/-- C9: with a non-empty `edop_norm_ranges` table the cached-load branch is
taken (the result never consults `basin08`); it succeeds exactly when a
row with `id = 1` exists, and with no such row the run raises instead of
falling back to computing ranges. -/
theorem get_global_ranges_cached_branch (tbl : RangesTable)
    (basins : List BasinRow) (hne : tbl ≠ []) :
    (∀ basins2, get_global_ranges tbl basins = get_global_ranges tbl basins2)
    ∧ ((∃ r ∈ tbl, r.1 = 1) →
        ∃ r ∈ tbl, r.1 = 1 ∧ get_global_ranges tbl basins = some r.2)
    ∧ ((¬ ∃ r ∈ tbl, r.1 = 1) → get_global_ranges tbl basins = none) := by
  have hpos : 0 < tbl.length := List.length_pos.mpr hne
  refine ⟨fun basins2 => ?_, fun hex => ?_, fun hnex => ?_⟩
  · unfold get_global_ranges
    rw [if_pos hpos, if_pos hpos]
  · unfold get_global_ranges
    rw [if_pos hpos]
    cases hfind : tbl.find? (fun r => r.1 = 1) with
    | none =>
      exfalso
      obtain ⟨r, hr, hr1⟩ := hex
      have := List.find?_eq_none.mp hfind r hr
      simp [hr1] at this
    | some r =>
      refine ⟨r, List.mem_of_find?_eq_some hfind, ?_, rfl⟩
      simpa using List.find?_some hfind
  · unfold get_global_ranges
    rw [if_pos hpos]
    cases hfind : tbl.find? (fun r => r.1 = 1) with
    | none => rfl
    | some r =>
      exfalso
      apply hnex
      exact ⟨r, List.mem_of_find?_eq_some hfind,
        by simpa using List.find?_some hfind⟩

/-- C9 witness: a non-empty table whose only row has `id = 2` gives a run
that ignores the source rows and raises (returns `none`). -/
theorem get_global_ranges_cached_branch_witness :
    get_global_ranges [(2, [])] []
      = get_global_ranges [(2, [])] [⟨0, [], [], []⟩]
    ∧ get_global_ranges [(2, [])] [] = none := by
  have h := get_global_ranges_cached_branch [(2, [])] [] (by simp)
  exact ⟨h.1 [⟨0, [], [], []⟩], h.2.2 (by simp)⟩

/-- C5: whenever `get_global_ranges` returns a mapping — verbatim from a
well-formed precomputed `edop_norm_ranges` row, or computed from the
source table — that mapping has a `_min` and a `_max` entry for every
numerical field of the Feature Definition. -/
theorem get_global_ranges_complete (tbl : RangesTable)
    (basins : List BasinRow)
    (hwf : ∀ r ∈ tbl, r.1 = 1 → ∀ p ∈ NUMERICAL_FIELDS,
      ((r.2.lookup (p.2 ++ "_min")).isSome
        ∧ (r.2.lookup (p.2 ++ "_max")).isSome)) :
    ∀ m, get_global_ranges tbl basins = some m →
      ∀ p ∈ NUMERICAL_FIELDS,
        (m.lookup (p.2 ++ "_min")).isSome
        ∧ (m.lookup (p.2 ++ "_max")).isSome := by
  intro m hm p hp
  unfold get_global_ranges at hm
  by_cases hpos : 0 < tbl.length
  · rw [if_pos hpos] at hm
    cases hfind : tbl.find? (fun r => r.1 = 1) with
    | none => rw [hfind] at hm; cases hm
    | some r =>
      rw [hfind] at hm
      have hr := List.mem_of_find?_eq_some hfind
      have hr1 : r.1 = 1 := by simpa using List.find?_some hfind
      have hm2 : r.2 = m := Option.some.inj hm
      rw [← hm2]
      exact hwf r hr hr1 p hp
  · rw [if_neg hpos] at hm
    have hm2 : computeRanges basins = m := Option.some.inj hm
    rw [← hm2]
    exact computeRanges_isSome basins p hp

/-- C5 witness: the compute branch on an empty table, checked for the first
numerical field. -/
theorem get_global_ranges_complete_witness :
    ((computeRanges []).lookup "elev_min_min").isSome
    ∧ ((computeRanges []).lookup "elev_min_max").isSome := by
  have h := get_global_ranges_complete [] [] (by simp) (computeRanges []) rfl
    ("ele_mt_smn", "elev_min") (by simp [NUMERICAL_FIELDS])
  exact h

/-- C1: the built matrix has one row per source basin; the persisted
identifier array is the source identifiers in ascending fetch order; and
at every index the identifier and the matrix row come from the same
source basin, so row `i` is the feature vector of the identifier at
index `i`. -/
theorem build_matrix_row_correspondence (ranges : StrDict (Option ℚ))
    (cat_ids : StrDict (List Int)) (rows : List BasinRow) :
    (build_matrix ranges cat_ids rows).2.length = rows.length
    ∧ (build_matrix ranges cat_ids rows).1.Perm
        (rows.map (fun r => r.hybas_id))
    ∧ List.Sorted (fun a b => a ≤ b) (build_matrix ranges cat_ids rows).1
    ∧ ∀ i, i < rows.length → ∃ r ∈ rows,
        (build_matrix ranges cat_ids rows).1[i]? = some r.hybas_id
        ∧ (build_matrix ranges cat_ids rows).2[i]?
            = some (rowVector ranges cat_ids r) := by
  haveI ht : IsTotal BasinRow (fun a b => a.hybas_id ≤ b.hybas_id) :=
    ⟨fun a b => le_total a.hybas_id b.hybas_id⟩
  haveI htr : IsTrans BasinRow (fun a b => a.hybas_id ≤ b.hybas_id) :=
    ⟨fun a b c hab hbc => le_trans hab hbc⟩
  have hperm : (sortRows rows).Perm rows := List.perm_insertionSort _ rows
  have hsort : List.Sorted (fun a b => a.hybas_id ≤ b.hybas_id)
      (sortRows rows) := List.sorted_insertionSort _ rows
  refine ⟨?_, ?_, ?_, ?_⟩
  · simp [build_matrix, hperm.length_eq]
  · exact hperm.map (fun r => r.hybas_id)
  · exact List.pairwise_map.mpr hsort
  · intro i hi
    have hi2 : i < (sortRows rows).length := by rw [hperm.length_eq]; exact hi
    refine ⟨(sortRows rows)[i], hperm.mem_iff.mp (List.getElem_mem hi2), ?_, ?_⟩
    · simp [build_matrix, List.getElem?_map, List.getElem?_eq_getElem hi2]
    · simp [build_matrix, List.getElem?_map, List.getElem?_eq_getElem hi2]

/-- C1 witness: two basins with ids 5 and 2 come back as identifier array
[2, 5], index 0 carrying basin 2's feature vector. -/
theorem build_matrix_row_correspondence_witness :
    ∃ r ∈ [(⟨5, [], [], []⟩ : BasinRow), ⟨2, [], [], []⟩],
      (build_matrix [] [] [⟨5, [], [], []⟩, ⟨2, [], [], []⟩]).1[0]?
        = some r.hybas_id
      ∧ (build_matrix [] [] [⟨5, [], [], []⟩, ⟨2, [], [], []⟩]).2[0]?
          = some (rowVector [] [] r) :=
  (build_matrix_row_correspondence [] []
    [⟨5, [], [], []⟩, ⟨2, [], [], []⟩]).2.2.2 0 (by norm_num)

/-- C3: matrix width is the number of continuous fields plus the number of
vegetation fields plus the summed vocabulary sizes, every built row has
that width, and two runs over different snapshots agree on it. -/
theorem matrix_column_count (ranges : StrDict (Option ℚ))
    (cat_ids : StrDict (List Int)) (rows : List BasinRow) :
    (build_feature_names cat_ids).length
      = NUMERICAL_FIELDS.length + PNV_FIELDS.length
        + ((catPairs cat_ids).map (fun q => q.2.length)).sum
    ∧ (∀ v ∈ (build_matrix ranges cat_ids rows).2,
        v.length = (build_feature_names cat_ids).length)
    ∧ (∀ rows2 v w, v ∈ (build_matrix ranges cat_ids rows).2 →
        w ∈ (build_matrix ranges cat_ids rows2).2 → v.length = w.length) := by
  have hlen : ∀ rowsx : List BasinRow,
      ∀ v ∈ (build_matrix ranges cat_ids rowsx).2,
      v.length = (build_feature_names cat_ids).length := by
    intro rowsx v hv
    simp only [build_matrix, List.mem_map] at hv
    obtain ⟨r, _, rfl⟩ := hv
    simp [rowVector]
  refine ⟨?_, hlen rows, fun rows2 v w hv hw => ?_⟩
  · rw [build_feature_names_length, catColOffset]
  · rw [hlen rows v hv, hlen rows2 w hw]

/-- C3 witness: a one-basin run with empty vocabularies, checked against
the feature-name count. -/
theorem matrix_column_count_witness :
    (rowVector [] [] ⟨1, [], [], []⟩).length = (build_feature_names []).length :=
  (matrix_column_count [] [] [⟨1, [], [], []⟩]).2.1
    (rowVector [] [] ⟨1, [], [], []⟩)
    (by simp [build_matrix, sortRows, List.insertionSort])

/-- C4: every row of the built matrix is the feature vector of a source
basin, and for each categorical field the one-hot sub-block of that
vector sums to 0 or 1 — 0 when the row's raw category id is null or
absent from the field's vocabulary, 1 when it matches a vocabulary id. -/
theorem onehot_block_sum (ranges : StrDict (Option ℚ))
    (cat_ids : StrDict (List Int)) (rows : List BasinRow) :
    (∀ w ∈ (build_matrix ranges cat_ids rows).2,
      ∃ r ∈ rows, w = rowVector ranges cat_ids r)
    ∧ (∀ r : BasinRow, r.cat_vals.length = CATEGORICAL_FIELDS.length →
       ∀ k, k < CATEGORICAL_FIELDS.length →
        (blockSum ranges cat_ids r k = 0 ∨ blockSum ranges cat_ids r k = 1)
        ∧ (r.cat_vals.getD k none = none → blockSum ranges cat_ids r k = 0)
        ∧ (∀ v, r.cat_vals.getD k none = some v →
            v ∉ lookupD cat_ids
              (CATEGORICAL_FIELDS.getD k ⟨"", "", "", ""⟩).pfx [] →
            blockSum ranges cat_ids r k = 0)
        ∧ (∀ v, r.cat_vals.getD k none = some v →
            v ∈ lookupD cat_ids
              (CATEGORICAL_FIELDS.getD k ⟨"", "", "", ""⟩).pfx [] →
            blockSum ranges cat_ids r k = 1)) := by
  constructor
  · intro w hw
    simp only [build_matrix, List.mem_map] at hw
    obtain ⟨r, hr, rfl⟩ := hw
    exact ⟨r, (List.perm_insertionSort _ rows).mem_iff.mp hr, rfl⟩
  · intro r hlen k hk
    have hgd : CATEGORICAL_FIELDS.getD k ⟨"", "", "", ""⟩
        = CATEGORICAL_FIELDS[k] := List.getD_eq_getElem _ _ hk
    have hBS : blockSum ranges cat_ids r k
        = ((match r.cat_vals.getD k none with
            | some v => ((idCols (fieldOffset cat_ids k)
                (lookupD cat_ids (CATEGORICAL_FIELDS[k]).pfx [])).lookup v).toList
            | none => ([] : List Nat)).length : ℚ) := by
      rw [blockSum, hgd]
      exact block_sum_eq ranges cat_ids r hlen k hk
    rw [hgd]
    refine ⟨?_, ?_, ?_, ?_⟩
    · rw [hBS]
      cases hval : r.cat_vals.getD k none with
      | none => simp
      | some v =>
        cases hlk : (idCols (fieldOffset cat_ids k)
            (lookupD cat_ids (CATEGORICAL_FIELDS[k]).pfx [])).lookup v with
        | none => simp [hlk]
        | some col => simp [hlk]
    · intro hval
      rw [hBS, hval]
      simp
    · intro v hval hnot
      rw [hBS, hval]
      have : ((idCols (fieldOffset cat_ids k)
          (lookupD cat_ids (CATEGORICAL_FIELDS[k]).pfx [])).lookup v) = none := by
        cases hlk : ((idCols (fieldOffset cat_ids k)
            (lookupD cat_ids (CATEGORICAL_FIELDS[k]).pfx [])).lookup v) with
        | none => rfl
        | some col =>
          exfalso
          apply hnot
          rw [← idCols_lookup_isSome _ (fieldOffset cat_ids k) v]
          simp [hlk]
      simp [this]
    · intro v hval hmem
      rw [hBS, hval]
      have hs : ((idCols (fieldOffset cat_ids k)
          (lookupD cat_ids (CATEGORICAL_FIELDS[k]).pfx [])).lookup v).isSome :=
        (idCols_lookup_isSome _ (fieldOffset cat_ids k) v).mpr hmem
      cases hlk : ((idCols (fieldOffset cat_ids k)
          (lookupD cat_ids (CATEGORICAL_FIELDS[k]).pfx [])).lookup v) with
      | none => rw [hlk] at hs; cases hs
      | some col => simp [hlk]

/-- C4 witness: vocabulary [5, 9] for the first field, a row carrying
category 9 there — its first one-hot block sums to 1. -/
theorem onehot_block_sum_witness :
    blockSum [] [("tec", [5, 9])]
      ⟨7, [], [], [some 9, none, none, none, none, none, none, none, none]⟩
      0 = 1 :=
  ((onehot_block_sum [] [("tec", [5, 9])] []).2
    ⟨7, [], [], [some 9, none, none, none, none, none, none, none, none]⟩
    (by simp [CATEGORICAL_FIELDS]) 0 (by simp [CATEGORICAL_FIELDS])).2.2.2 9
    (by simp) (by simp [lookupD, CATEGORICAL_FIELDS])

/-- With distinct prefixes, looking up the `k`-th field's prefix in the
built column map yields that field's id-to-column assignment, starting at
the field's block offset. -/
theorem buildColMapAux_lookup (pairs : List (String × List Int)) (s k : Nat)
    (hk : k < pairs.length) (hnd : (pairs.map Prod.fst).Nodup) :
    (buildColMapAux s pairs).lookup pairs[k].1
      = some (idCols (s + ((pairs.take k).map (fun q => q.2.length)).sum)
          pairs[k].2) := by
  induction pairs generalizing s k with
  | nil => cases hk
  | cons pq rest ih =>
    obtain ⟨p, vocab⟩ := pq
    cases k with
    | zero =>
      simp [buildColMapAux, List.lookup]
    | succ k =>
      have hk2 : k < rest.length := by simpa using hk
      have hne : ¬ (rest[k].1 == p) = true := by
        intro hb
        have hpnotin : p ∉ rest.map Prod.fst := by
          simpa using (List.nodup_cons.mp hnd).1
        apply hpnotin
        rw [← eq_of_beq hb]
        exact List.mem_map_of_mem Prod.fst (List.getElem_mem hk2)
      simp only [buildColMapAux, List.lookup, List.getElem_cons_succ, hne]
      rw [ih (s + vocab.length) k hk2 hnd.of_cons]
      have harith : s + vocab.length
            + ((rest.take k).map (fun q => q.2.length)).sum
          = s + ((((p, vocab) :: rest).take (k + 1)).map
              (fun q => q.2.length)).sum := by
        simp only [List.take_succ_cons, List.map_cons, List.sum_cons]
        omega
      rw [harith]

/-- Indexing a flattened list of blocks at a block offset plus an inner
index lands in that block. -/
theorem flatMap_getElem? {α β : Type} (L : List α) (g : α → List β)
    (k i : Nat) (hk : k < L.length) (hi : i < (g L[k]).length) :
    (L.flatMap g)[(((L.take k).map (fun a => (g a).length)).sum + i)]?
      = (g L[k])[i]? := by
  induction L generalizing k with
  | nil => cases hk
  | cons x rest ih =>
    cases k with
    | zero =>
      simp only [List.take_zero, List.map_nil, List.sum_nil, Nat.zero_add,
        List.flatMap_cons, List.getElem_cons_zero]
      rw [List.getElem?_append_left]
      simpa using hi
    | succ k =>
      have hk2 : k < rest.length := by simpa using hk
      simp only [List.take_succ_cons, List.map_cons, List.sum_cons,
        List.flatMap_cons, List.getElem_cons_succ]
      rw [Nat.add_assoc, List.getElem?_append_right (by omega),
        Nat.add_sub_cancel_left]
      exact ih k hk2 (by simpa using hi)

/-- C8: the persisted feature-name list is in matrix-column order — the
`i`-th continuous name at index `i`, the `j`-th vegetation name at index
(number of continuous fields) + `j`, and `cat_<prefix>_<id>` at exactly
the column `cat_id_to_col` assigns to that id, i.e. where the one-hot
entry for that id is written. -/
theorem feature_names_aligned (cat_ids : StrDict (List Int)) :
    (∀ i, (hi : i < NUMERICAL_FIELDS.length) →
      (build_feature_names cat_ids)[i]?
        = some ("n_" ++ (NUMERICAL_FIELDS[i]).2))
    ∧ (∀ j, j < 15 →
      (build_feature_names cat_ids)[NUMERICAL_FIELDS.length + j]?
        = some ("pnv_" ++ pad2 (j + 1)))
    ∧ (∀ k, (hk : k < CATEGORICAL_FIELDS.length) → ∀ v col,
      (lookupD (buildColMap cat_ids) (CATEGORICAL_FIELDS[k]).pfx []).lookup v
        = some col →
      (build_feature_names cat_ids)[col]?
        = some ("cat_" ++ (CATEGORICAL_FIELDS[k]).pfx ++ "_" ++ toString v)) := by
  have hA : (NUMERICAL_FIELDS.map (fun q => "n_" ++ q.2)).length
      = NUMERICAL_FIELDS.length := List.length_map _ _
  have hB : ((List.range 15).map (fun i => "pnv_" ++ pad2 (i + 1))).length
      = 15 := by simp
  have hAB : (NUMERICAL_FIELDS.map (fun q => "n_" ++ q.2)
        ++ (List.range 15).map (fun i => "pnv_" ++ pad2 (i + 1))).length
      = NUMERICAL_FIELDS.length + 15 := by
    rw [List.length_append, hA, hB]
  have hpnv : PNV_FIELDS.length = 15 := by simp [PNV_FIELDS]
  refine ⟨fun i hi => ?_, fun j hj => ?_, fun k hk v col hlook => ?_⟩
  · rw [build_feature_names,
      List.getElem?_append_left (by rw [hAB]; omega),
      List.getElem?_append_left (by rw [hA]; omega),
      List.getElem?_map, List.getElem?_eq_getElem hi]
    rfl
  · rw [build_feature_names,
      List.getElem?_append_left (by rw [hAB]; omega),
      List.getElem?_append_right (by rw [hA]; omega), hA,
      Nat.add_sub_cancel_left, List.getElem?_map, List.getElem?_range hj]
    rfl
  · have hkP : k < (catPairs cat_ids).length := by simp [catPairs]; omega
    have hPk : (catPairs cat_ids)[k]
        = ((CATEGORICAL_FIELDS[k]).pfx,
           lookupD cat_ids (CATEGORICAL_FIELDS[k]).pfx []) := by
      simp [catPairs, List.getElem_map]
    have hnodup : ((catPairs cat_ids).map Prod.fst).Nodup := by
      rw [catPairs_fst]
      decide
    have hl2 := buildColMapAux_lookup (catPairs cat_ids) catColOffset k hkP
      hnodup
    rw [hPk] at hl2
    simp only at hl2
    rw [lookupD, buildColMap, hl2, Option.getD_some] at hlook
    obtain ⟨i, hi, hvi, hcol⟩ := idCols_lookup_some _ _ _ _ hlook
    subst hcol
    have hoffval : catColOffset = NUMERICAL_FIELDS.length + 15 := by
      rw [catColOffset, hpnv]
    rw [build_feature_names,
      List.getElem?_append_right (by rw [hAB]; omega), hAB]
    have hidx : catColOffset
          + (((catPairs cat_ids).take k).map (fun q => q.2.length)).sum + i
          - (NUMERICAL_FIELDS.length + 15)
        = (((catPairs cat_ids).take k).map (fun q => q.2.length)).sum + i := by
      omega
    rw [hidx]
    have hmapeq : (((catPairs cat_ids).take k).map (fun q => q.2.length)).sum
        = (((catPairs cat_ids).take k).map (fun q =>
            (q.2.map (fun w => "cat_" ++ q.1 ++ "_" ++ toString w)).length)).sum := by
      congr 1
      apply List.map_congr_left
      intro q _
      simp
    rw [hmapeq]
    have hgi : i < (((catPairs cat_ids)[k]).2.map
        (fun w => "cat_" ++ ((catPairs cat_ids)[k]).1 ++ "_" ++ toString w)).length := by
      rw [hPk]
      simpa using hi
    rw [flatMap_getElem? (catPairs cat_ids)
      (fun q => q.2.map (fun w => "cat_" ++ q.1 ++ "_" ++ toString w)) k i hkP hgi]
    rw [List.getElem?_map]
    have hv2 : ((catPairs cat_ids)[k]).2[i]? = some v := by
      rw [hPk]
      simp only
      rw [List.getElem?_eq_getElem hi, hvi]
    rw [hv2, hPk]
    simp

/-- C8 witness: with vocabulary [5, 9] for the first categorical field,
column 0 is named after the first continuous field and the column
assigned to id 9 (column 47) is named `cat_tec_9`. -/
theorem feature_names_aligned_witness :
    (build_feature_names [("tec", [5, 9])])[0]?
      = some ("n_" ++ (NUMERICAL_FIELDS[0]).2)
    ∧ (build_feature_names [("tec", [5, 9])])[47]?
      = some ("cat_" ++ (CATEGORICAL_FIELDS[0]).pfx ++ "_" ++ toString (9 : Int)) :=
  ⟨(feature_names_aligned [("tec", [5, 9])]).1 0 (by decide),
   (feature_names_aligned [("tec", [5, 9])]).2.2 0 (by decide) 9 47 (by decide)⟩

end Cedop
